import Mathlib

/-!
Shallow embedding of the MapReduce word-frequency pipeline of
`mapreduce_word_analysis.py` (class `MapReduceWordAnalyzer`).

Strings are modelled as `List Char`; the character-class operations of the
Python code (`str.lower`, the regex classes `\s`, `[^a-z\s]`, `<[^>]+>`,
`str.strip`, `str.split`) are modelled at the ASCII level, which covers the
whole character alphabet the pipeline's guarantees are stated over.
Counts are `Nat` (the program only ever creates the literal count 1 and sums
such counts); worker/top-K configuration values come from `argparse` as
(possibly negative) integers and are modelled as `Int`.  The fallible
chunking step (Python raises `ZeroDivisionError` when `num_chunks = 0`)
returns `Except String`.
-/

/-- ASCII whitespace, the characters matched by Python's regex class `\s`
(and stripped by `str.strip` / split on by `str.split`). -/
def isSpaceCh (c : Char) : Bool :=
  c = ' ' || c = '\t' || c = '\n' || c = '\r' || c.toNat = 11 || c.toNat = 12

/-- Lowercase ASCII letter, the class `[a-z]`. -/
def isLowerAZ (c : Char) : Bool :=
  97 ≤ c.toNat && c.toNat ≤ 122

/-- ASCII case folding performed by `str.lower()` (`text.lower()`, line 87). -/
def pyLower (c : Char) : Char :=
  if 65 ≤ c.toNat ∧ c.toNat ≤ 90 then Char.ofNat (c.toNat + 32) else c

/-- Characters kept by `re.sub(r'[^a-z\s]', '', text)` (line 93): lowercase
letters and whitespace survive, everything else is deleted. -/
def keepChar (c : Char) : Bool :=
  isLowerAZ c || isSpaceCh c

/-- State machine for `re.sub(r'<[^>]+>', '', text)` (line 84).  The state
`none` means we are scanning outside a candidate tag; `some buf` means a `<`
has been seen and `buf` holds (reversed) the non-`>` characters read since.
A closing `>` after at least one buffered character deletes the whole match;
`<>` is not a match (the class `[^>]+` needs one character) and is emitted
literally; an unclosed `<` at end of input is emitted literally, which agrees
with the regex finding no further match to its right. -/
def stripTagsAux : Option (List Char) → List Char → List Char
  | none, [] => []
  | some buf, [] => '<' :: buf.reverse
  | none, c :: rest =>
      if c = '<' then stripTagsAux (some []) rest
      else c :: stripTagsAux none rest
  | some buf, c :: rest =>
      if c = '>' then
        if buf = [] then '<' :: '>' :: stripTagsAux none rest
        else stripTagsAux none rest
      else stripTagsAux (some (c :: buf)) rest

/-- Removal of bracket-delimited markup, `re.sub(r'<[^>]+>', '', text)`. -/
def stripTags (s : List Char) : List Char :=
  stripTagsAux none s

/-- Worker for `re.sub(r'\s+', ' ', text)` (line 90): `inRun` records whether
the previous character belonged to a whitespace run already replaced. -/
def collapseWsAux : Bool → List Char → List Char
  | _, [] => []
  | inRun, c :: rest =>
      if isSpaceCh c then
        if inRun then collapseWsAux true rest
        else ' ' :: collapseWsAux true rest
      else c :: collapseWsAux false rest

/-- Collapse every maximal whitespace run to a single space,
`re.sub(r'\s+', ' ', text)`. -/
def collapseWs (s : List Char) : List Char :=
  collapseWsAux false s

/-- Python `str.strip()`: drop whitespace from both ends. -/
def stripList (s : List Char) : List Char :=
  ((s.dropWhile isSpaceCh).reverse.dropWhile isSpaceCh).reverse

/-- The method `MapReduceWordAnalyzer.preprocess_text` (lines 71-96): strip
markup tags, lowercase, collapse whitespace runs to single spaces, delete
every character that is not a lowercase letter or whitespace, and trim. -/
def preprocess_text (text : List Char) : List Char :=
  stripList (((collapseWs ((stripTags text).map pyLower)).filter keepChar))

/-- Worker for Python `str.split()` (no separator argument): `acc` holds the
characters of the word currently being read, reversed. -/
def pySplitAux : List Char → List Char → List (List Char)
  | acc, [] => if acc = [] then [] else [acc.reverse]
  | acc, c :: rest =>
      if isSpaceCh c then
        if acc = [] then pySplitAux [] rest
        else acc.reverse :: pySplitAux [] rest
      else pySplitAux (c :: acc) rest

/-- Python `str.split()`: split on whitespace runs, returning no empty
words. -/
def pySplit (s : List Char) : List (List Char) :=
  pySplitAux [] s

/-- Python `' '.join(words)` (line 160). -/
def joinWords : List (List Char) → List Char
  | [] => []
  | [w] => w
  | w :: ws => w ++ ' ' :: joinWords ws

/-- The stop-word set `self.stop_words` built in
`MapReduceWordAnalyzer.__init__` (lines 32-41). -/
def stop_words : List (List Char) :=
  ["the", "a", "an", "and", "or", "but", "in", "on", "at", "to", "for", "of", "with", "by",
   "from", "up", "about", "into", "through", "during", "before", "after", "above", "below",
   "as", "is", "was", "are", "were", "be", "been", "being", "have", "has", "had", "do", "does",
   "did", "will", "would", "could", "should", "may", "might", "must", "can", "shall", "this",
   "that", "these", "those", "i", "you", "he", "she", "it", "we", "they", "them", "their",
   "what", "which", "who", "when", "where", "why", "how", "all", "any", "both", "each",
   "few", "more", "most", "other", "some", "such", "no", "nor", "not", "only", "own", "same",
   "so", "than", "too", "very", "s", "t", "just", "don", "now", "if", "then", "once"].map String.toList

/-- The method `MapReduceWordAnalyzer.map_function` (lines 98-117): split the
chunk into words, strip each word, and emit `(word, 1)` for every word longer
than two characters that is not a stop word, in order of appearance. -/
def map_function (text_chunk : List Char) : List (List Char × Nat) :=
  (pySplit text_chunk).foldl
    (fun word_count word =>
      let word := stripList word
      if 2 < word.length ∧ word ∉ stop_words then word_count ++ [(word, 1)]
      else word_count)
    []

/-- One `word_count[word] += count` step on a `defaultdict(int)` modelled as
an insertion-ordered association list: update the entry for `w` in place if
present, otherwise append a fresh entry at the end (Python dict order). -/
def addPair (table : List (List Char × Nat)) (w : List Char) (c : Nat) :
    List (List Char × Nat) :=
  match table with
  | [] => [(w, c)]
  | (w', c') :: rest =>
      if w' = w then (w', c' + c) :: rest else (w', c') :: addPair rest w c

/-- The method `MapReduceWordAnalyzer.reduce_function` (lines 119-135):
accumulate every emitted `(word, count)` pair of every per-segment result
list into one table by summation. -/
def reduce_function (mapped_data : List (List (List Char × Nat))) :
    List (List Char × Nat) :=
  mapped_data.foldl
    (fun word_count word_list =>
      word_list.foldl (fun t wc => addPair t wc.1 wc.2) word_count)
    []

/-- The method `MapReduceWordAnalyzer.split_text_into_chunks` (lines 137-163).
`len(words) // num_chunks` raises `ZeroDivisionError` when `num_chunks = 0`;
`range(num_chunks)` is empty when `num_chunks < 0` (then `Int.toNat` is `0`),
so for positive `num_chunks` the word ranges are the `Nat` ranges of the
Python slices `words[i*chunk_size : (i+1)*chunk_size]` (last chunk: up to
`len(words)`), each rejoined with single spaces. -/
def split_text_into_chunks (text : List Char) (num_chunks : Int) :
    Except String (List (List Char)) :=
  if num_chunks = 0 then
    .error "ZeroDivisionError: integer division or modulo by zero"
  else
    let words := pySplit text
    let n := num_chunks.toNat
    let chunk_size := words.length / n
    .ok ((List.range n).map (fun i =>
      let start := i * chunk_size
      let stop := if i = n - 1 then words.length else (i + 1) * chunk_size
      joinWords ((words.drop start).take (stop - start))))

/-- The method `MapReduceWordAnalyzer.mapreduce_word_count` (lines 165-196):
normalize, chunk into `num_workers` segments, run the map phase
(`ThreadPoolExecutor.map` keeps segment order), reduce.  The
`ZeroDivisionError` of the chunking step propagates, and constructing the
`ThreadPoolExecutor` (line 186) raises `ValueError` when
`max_workers ≤ 0`, after chunking but before any segment is mapped. -/
def mapreduce_word_count (num_workers : Int) (text : List Char) :
    Except String (List (List Char × Nat)) :=
  let text' := preprocess_text text
  match split_text_into_chunks text' num_workers with
  | .error e => .error e
  | .ok chunks =>
      if num_workers ≤ 0 then
        .error "ValueError: max_workers must be greater than 0"
      else .ok (reduce_function (chunks.map map_function))

/-- Comparison used to model `Counter.most_common`: descending by count.
`heapq.nlargest` is documented to agree with the stable
`sorted(items, key=count, reverse=True)`, which a stable insertion sort
under this relation reproduces. -/
def countGe (p q : List Char × Nat) : Prop :=
  q.2 ≤ p.2

instance : DecidableRel countGe :=
  fun p q => inferInstanceAs (Decidable (q.2 ≤ p.2))

instance : IsTotal (List Char × Nat) countGe :=
  ⟨fun p q => (Nat.le_total q.2 p.2).elim Or.inl Or.inr⟩

instance : IsTrans (List Char × Nat) countGe :=
  ⟨fun _ _ _ h h' => Nat.le_trans h' h⟩

/-- The method `MapReduceWordAnalyzer.get_top_words` (lines 198-216):
`Counter(word_frequencies).most_common(top_n)`, i.e. the stable descending
sort of the table by count, truncated to `top_n` entries (`nlargest` returns
the empty list for `top_n ≤ 0`, matching `Int.toNat`). -/
def get_top_words (word_frequencies : List (List Char × Nat)) (top_n : Int) :
    List (List Char × Nat) :=
  (List.insertionSort countGe word_frequencies).take top_n.toNat

/-- Key lookup in a frequency table: the word-to-count mapping an
association-list table denotes (first matching key wins; tables built by
`reduce_function` have unique keys). -/
def lookup : List (List Char × Nat) → List Char → Option Nat
  | [], _ => none
  | (w', c) :: rest, w => if w' = w then some c else lookup rest w

/-! ### Basic lemmas about the normalization building blocks -/

/-- Clean characters: lowercase ASCII letters and the blank.  This is the
character alphabet `preprocess_text` guarantees for its output. -/
def cleanChar (c : Char) : Prop :=
  (97 ≤ c.toNat ∧ c.toNat ≤ 122) ∨ c = ' '

/-- Absence of two adjacent whitespace characters. -/
def noTwoSpaces (s : List Char) : Prop :=
  List.Chain' (fun x y => ¬(isSpaceCh x = true ∧ isSpaceCh y = true)) s

theorem cleanChar_not_lt {c : Char} (h : cleanChar c) : c ≠ '<' := by
  rcases h with h | rfl
  · intro hc; subst hc; revert h; decide
  · decide

theorem cleanChar_space_eq_blank {c : Char} (h : cleanChar c)
    (hs : isSpaceCh c = true) : c = ' ' := by
  rcases h with ⟨h1, h2⟩ | rfl
  · exfalso
    simp only [isSpaceCh, Bool.or_eq_true, decide_eq_true_eq] at hs
    rcases hs with ((((rfl | rfl) | rfl) | rfl) | h11) | h12
    · exact absurd h1 (by decide)
    · exact absurd h1 (by decide)
    · exact absurd h1 (by decide)
    · exact absurd h1 (by decide)
    · omega
    · omega
  · rfl

theorem stripTags_eq_self {s : List Char} (h : ∀ c ∈ s, c ≠ '<') :
    stripTags s = s := by
  induction s with
  | nil => rfl
  | cons c rest ih =>
    show stripTagsAux none (c :: rest) = c :: rest
    simp only [stripTagsAux]
    rw [if_neg (h c (List.mem_cons_self c rest))]
    exact congrArg (c :: ·) (ih fun d hd => h d (List.mem_cons_of_mem _ hd))

theorem pyLower_eq_self {c : Char} (h : cleanChar c) : pyLower c = c := by
  rcases h with h | rfl
  · simp only [pyLower]
    rw [if_neg]
    omega
  · decide

theorem map_pyLower_eq_self {s : List Char} (h : ∀ c ∈ s, cleanChar c) :
    s.map pyLower = s := by
  have := List.map_congr_left (g := id) (l := s)
    (fun c hc => pyLower_eq_self (h c hc))
  simpa using this

theorem cleanChar_keep {c : Char} (h : cleanChar c) : keepChar c = true := by
  rcases h with h | rfl
  · simp only [keepChar, isLowerAZ, Bool.or_eq_true, Bool.and_eq_true,
      decide_eq_true_eq]
    left; omega
  · decide

/-! dropWhile facts -/

theorem head?_dropWhile_false {α : Type} (p : α → Bool) (l : List α) :
    ∀ c, (l.dropWhile p).head? = some c → p c = false := by
  induction l with
  | nil => intro c h; simp at h
  | cons a l ih =>
    intro c h
    rw [List.dropWhile_cons] at h
    by_cases hp : p a
    · rw [if_pos hp] at h; exact ih c h
    · rw [if_neg hp] at h
      simp only [List.head?_cons, Option.some.injEq] at h
      subst h
      exact Bool.eq_false_iff.mpr hp

theorem dropWhile_eq_self_of_head {α : Type} {p : α → Bool} {l : List α}
    (h : ∀ c, l.head? = some c → p c = false) : l.dropWhile p = l := by
  cases l with
  | nil => rfl
  | cons a l => rw [List.dropWhile_cons, if_neg]; simp [h a rfl]

theorem dropWhile_idem {α : Type} (p : α → Bool) (l : List α) :
    (l.dropWhile p).dropWhile p = l.dropWhile p :=
  dropWhile_eq_self_of_head (head?_dropWhile_false p l)

theorem dropWhile_eq_self_of_forall {α : Type} {p : α → Bool} {l : List α}
    (h : ∀ c ∈ l, p c = false) : l.dropWhile p = l := by
  cases l with
  | nil => rfl
  | cons a l =>
    rw [List.dropWhile_cons, if_neg]
    simp [h a (List.mem_cons_self a l)]

theorem dropWhile_suffix {α : Type} (p : α → Bool) (l : List α) :
    l.dropWhile p <:+ l := by
  induction l with
  | nil => exact List.suffix_refl _
  | cons a l ih =>
    rw [List.dropWhile_cons]
    by_cases hp : p a
    · rw [if_pos hp]; exact ih.trans (List.suffix_cons a l)
    · rw [if_neg hp]

theorem reverse_prefix_of_suffix {α : Type} {v w : List α} (h : v <:+ w) :
    v.reverse <+: w.reverse := by
  obtain ⟨t, rfl⟩ := h
  rw [List.reverse_append]
  exact ⟨t.reverse, rfl⟩

theorem prefix_head?_eq {α : Type} {l₁ l₂ : List α} (h : l₁ <+: l₂)
    (hne : l₁ ≠ []) : l₁.head? = l₂.head? := by
  obtain ⟨t, rfl⟩ := h
  cases l₁ with
  | nil => exact absurd rfl hne
  | cons a l => rfl

/-! stripList facts -/

theorem stripList_prefixDrop (s : List Char) :
    stripList s <+: s.dropWhile isSpaceCh := by
  have h := dropWhile_suffix isSpaceCh (s.dropWhile isSpaceCh).reverse
  have h2 := reverse_prefix_of_suffix h
  rwa [List.reverse_reverse] at h2

theorem mem_stripList {c : Char} {s : List Char} (h : c ∈ stripList s) :
    c ∈ s := by
  have h1 : c ∈ s.dropWhile isSpaceCh :=
    (stripList_prefixDrop s).sublist.mem h
  exact (dropWhile_suffix isSpaceCh s).sublist.mem h1

theorem head?_stripList {s : List Char} :
    ∀ c, (stripList s).head? = some c → isSpaceCh c = false := by
  intro c h
  have hne : stripList s ≠ [] := by
    intro hn
    rw [hn] at h
    exact Option.noConfusion h
  rw [prefix_head?_eq (stripList_prefixDrop s) hne] at h
  exact head?_dropWhile_false isSpaceCh s c h

theorem getLast?_stripList {s : List Char} :
    ∀ c, (stripList s).getLast? = some c → isSpaceCh c = false := by
  intro c h
  rw [stripList, List.getLast?_reverse] at h
  exact head?_dropWhile_false isSpaceCh _ c h

theorem stripList_idem (s : List Char) :
    stripList (stripList s) = stripList s := by
  have h1 : (stripList s).dropWhile isSpaceCh = stripList s :=
    dropWhile_eq_self_of_head (fun c hc => head?_stripList c hc)
  show (((stripList s).dropWhile isSpaceCh).reverse.dropWhile isSpaceCh).reverse
      = stripList s
  rw [h1]
  have h2 : (stripList s).reverse.dropWhile isSpaceCh = (stripList s).reverse := by
    have hrev : (stripList s).reverse
        = (s.dropWhile isSpaceCh).reverse.dropWhile isSpaceCh := by
      rw [stripList, List.reverse_reverse]
    rw [hrev]
    exact dropWhile_idem _ _
  rw [h2, List.reverse_reverse]

theorem stripList_eq_self_of_forall {s : List Char}
    (h : ∀ c ∈ s, isSpaceCh c = false) : stripList s = s := by
  rw [stripList, dropWhile_eq_self_of_forall h,
    dropWhile_eq_self_of_forall (fun c hc => h c (List.mem_reverse.mp hc)),
    List.reverse_reverse]

/-! collapseWs facts -/

theorem mem_collapseWsAux {c : Char} :
    ∀ (s : List Char) (b : Bool), c ∈ collapseWsAux b s → c ∈ s ∨ c = ' ' := by
  intro s
  induction s with
  | nil => intro b h; simp [collapseWsAux] at h
  | cons a s ih =>
    intro b h
    simp only [collapseWsAux] at h
    by_cases ha : isSpaceCh a
    · rw [if_pos ha] at h
      cases b with
      | true =>
        rcases ih true h with h' | h'
        · exact Or.inl (List.mem_cons_of_mem _ h')
        · exact Or.inr h'
      | false =>
        rcases List.mem_cons.mp h with rfl | h'
        · exact Or.inr rfl
        · rcases ih true h' with h'' | h''
          · exact Or.inl (List.mem_cons_of_mem _ h'')
          · exact Or.inr h''
    · rw [if_neg ha] at h
      rcases List.mem_cons.mp h with rfl | h'
      · exact Or.inl (List.mem_cons_self _ _)
      · rcases ih false h' with h'' | h''
        · exact Or.inl (List.mem_cons_of_mem _ h'')
        · exact Or.inr h''

theorem space_mem_collapseWsAux {c : Char} :
    ∀ (s : List Char) (b : Bool), c ∈ collapseWsAux b s →
      isSpaceCh c = true → c = ' ' := by
  intro s
  induction s with
  | nil => intro b h; simp [collapseWsAux] at h
  | cons a s ih =>
    intro b h hc
    simp only [collapseWsAux] at h
    by_cases ha : isSpaceCh a
    · rw [if_pos ha] at h
      cases b with
      | true => exact ih true h hc
      | false =>
        rcases List.mem_cons.mp h with rfl | h'
        · rfl
        · exact ih true h' hc
    · rw [if_neg ha] at h
      rcases List.mem_cons.mp h with rfl | h'
      · rw [hc] at ha; exact absurd rfl ha
      · exact ih false h' hc

theorem head?_collapseWsAux_true {c : Char} :
    ∀ s : List Char, (collapseWsAux true s).head? = some c →
      isSpaceCh c = false := by
  intro s
  induction s with
  | nil => intro h; simp [collapseWsAux] at h
  | cons a s ih =>
    intro h
    simp only [collapseWsAux] at h
    by_cases ha : isSpaceCh a
    · rw [if_pos ha] at h
      exact ih h
    · rw [if_neg ha] at h
      simp only [List.head?_cons, Option.some.injEq] at h
      subst h
      exact Bool.eq_false_iff.mpr ha

theorem noTwoSpaces_collapseWsAux :
    ∀ (s : List Char) (b : Bool),
      List.Chain' (fun x y => ¬(isSpaceCh x = true ∧ isSpaceCh y = true))
        (collapseWsAux b s) := by
  intro s
  induction s with
  | nil => intro b; simp [collapseWsAux]
  | cons a s ih =>
    intro b
    simp only [collapseWsAux]
    by_cases ha : isSpaceCh a
    · rw [if_pos ha]
      cases b with
      | true => exact ih true
      | false =>
        simp only [Bool.false_eq_true, if_false]
        rw [List.chain'_cons']
        refine ⟨fun y hy => ?_, ih true⟩
        rintro ⟨-, hys⟩
        rw [head?_collapseWsAux_true s hy] at hys
        exact Bool.noConfusion hys
    · rw [if_neg ha]
      rw [List.chain'_cons']
      refine ⟨fun y hy => ?_, ih false⟩
      rintro ⟨hxs, -⟩
      rw [hxs] at ha
      exact ha rfl

theorem collapseWs_mem {c : Char} {s : List Char} (h : c ∈ collapseWs s) :
    c ∈ s ∨ c = ' ' :=
  mem_collapseWsAux s false h

theorem noTwoSpaces_collapseWs (s : List Char) : noTwoSpaces (collapseWs s) :=
  noTwoSpaces_collapseWsAux s false

theorem collapseWsAux_true_eq_false_of_head {s : List Char}
    (h : ∀ c, s.head? = some c → isSpaceCh c = false) :
    collapseWsAux true s = collapseWsAux false s := by
  cases s with
  | nil => rfl
  | cons a s =>
    have ha : isSpaceCh a = false := h a rfl
    simp only [collapseWsAux, ha]
    simp

theorem collapseWs_eq_self {s : List Char}
    (hsp : ∀ c ∈ s, isSpaceCh c = true → c = ' ')
    (hnr : noTwoSpaces s) : collapseWs s = s := by
  rw [collapseWs]
  induction s with
  | nil => rfl
  | cons a s ih =>
    simp only [collapseWsAux]
    by_cases ha : isSpaceCh a
    · rw [if_pos ha]
      have ha' : a = ' ' := hsp a (List.mem_cons_self a s) ha
      have hhead : ∀ c, s.head? = some c → isSpaceCh c = false := by
        intro c hc
        have hr := (List.chain'_cons'.mp hnr).1 c hc
        by_contra hcs
        exact hr ⟨ha, Bool.not_eq_false _ |>.mp hcs⟩
      rw [collapseWsAux_true_eq_false_of_head hhead]
      rw [ih (fun c hc h' => hsp c (List.mem_cons_of_mem _ hc) h')
        (List.chain'_cons'.mp hnr).2]
      rw [ha']
      simp
    · rw [if_neg ha]
      rw [ih (fun c hc h' => hsp c (List.mem_cons_of_mem _ hc) h')
        (List.chain'_cons'.mp hnr).2]

/-! pySplit facts -/

theorem pySplitAux_words_ok :
    ∀ (s acc : List Char), (∀ c ∈ acc, isSpaceCh c = false) →
      ∀ w ∈ pySplitAux acc s, w ≠ [] ∧ ∀ c ∈ w, isSpaceCh c = false := by
  intro s
  induction s with
  | nil =>
    intro acc hacc w hw
    simp only [pySplitAux] at hw
    by_cases hne : acc = []
    · rw [if_pos hne] at hw; simp at hw
    · rw [if_neg hne] at hw
      rcases List.mem_singleton.mp hw with rfl
      refine ⟨by simpa using hne, fun c hc => hacc c (List.mem_reverse.mp hc)⟩
  | cons a s ih =>
    intro acc hacc w hw
    simp only [pySplitAux] at hw
    by_cases ha : isSpaceCh a
    · rw [if_pos ha] at hw
      by_cases hne : acc = []
      · rw [if_pos hne] at hw
        exact ih [] (by simp) w hw
      · rw [if_neg hne] at hw
        rcases List.mem_cons.mp hw with rfl | hw'
        · refine ⟨by simpa using hne, fun c hc => hacc c (List.mem_reverse.mp hc)⟩
        · exact ih [] (by simp) w hw'
    · rw [if_neg ha] at hw
      refine ih (a :: acc) ?_ w hw
      intro c hc
      rcases List.mem_cons.mp hc with rfl | hc'
      · exact Bool.eq_false_iff.mpr ha
      · exact hacc c hc'

theorem pySplit_words_ok {w : List Char} {s : List Char} (h : w ∈ pySplit s) :
    w ≠ [] ∧ ∀ c ∈ w, isSpaceCh c = false :=
  pySplitAux_words_ok s [] (by simp) w h

theorem pySplitAux_append_word :
    ∀ (w acc rest : List Char), (∀ c ∈ w, isSpaceCh c = false) →
      pySplitAux acc (w ++ rest) = pySplitAux (w.reverse ++ acc) rest := by
  intro w
  induction w with
  | nil => intro acc rest _; simp
  | cons c w ih =>
    intro acc rest h
    have hc : isSpaceCh c = false := h c (List.mem_cons_self c w)
    show pySplitAux acc (c :: (w ++ rest)) = _
    simp only [pySplitAux, hc]
    simp only [Bool.false_eq_true, if_false]
    rw [ih (c :: acc) rest (fun d hd => h d (List.mem_cons_of_mem _ hd))]
    rw [List.reverse_cons, List.append_assoc]
    rfl

theorem pySplit_joinWords :
    ∀ ws : List (List Char),
      (∀ w ∈ ws, w ≠ [] ∧ ∀ c ∈ w, isSpaceCh c = false) →
      pySplit (joinWords ws) = ws := by
  intro ws
  induction ws with
  | nil => intro _; rfl
  | cons w ws ih =>
    intro h
    obtain ⟨hwne, hwsp⟩ := h w (List.mem_cons_self w ws)
    cases ws with
    | nil =>
      show pySplitAux [] (joinWords [w]) = [w]
      have : joinWords [w] = w := rfl
      rw [this]
      have := pySplitAux_append_word w [] [] hwsp
      rw [List.append_nil] at this
      rw [this]
      simp only [pySplitAux, List.append_nil]
      rw [if_neg (by simpa using hwne)]
      rw [List.reverse_reverse]
    | cons w' ws' =>
      show pySplitAux [] (joinWords (w :: w' :: ws')) = _
      have hjoin : joinWords (w :: w' :: ws') = w ++ ' ' :: joinWords (w' :: ws') := rfl
      rw [hjoin]
      rw [pySplitAux_append_word w [] _ hwsp, List.append_nil]
      simp only [pySplitAux]
      rw [if_pos (by decide)]
      rw [if_neg (by simpa using hwne)]
      rw [List.reverse_reverse]
      exact congrArg (w :: ·) (ih fun v hv => h v (List.mem_cons_of_mem _ hv))

/-! Chunker slice facts -/

theorem slices_flatten {α : Type} (b : Nat) :
    ∀ (m : Nat) (l : List α),
      ((List.range m).map (fun i => (l.drop (i * b)).take b)).flatten
        = l.take (m * b) := by
  intro m
  induction m with
  | zero => intro l; simp
  | succ m ih =>
    intro l
    rw [List.range_succ, List.map_append, List.flatten_append, ih]
    simp only [List.map_cons, List.map_nil, List.flatten_cons, List.flatten_nil,
      List.append_nil]
    rw [Nat.succ_mul, List.take_add]

theorem range_map_slices {α : Type} (l : List α) (n : Nat) (hn : 1 ≤ n) :
    ((List.range n).map (fun i =>
        (l.drop (i * (l.length / n))).take
          ((if i = n - 1 then l.length else (i + 1) * (l.length / n))
            - i * (l.length / n)))).flatten = l := by
  obtain ⟨m, rfl⟩ : ∃ m, n = m + 1 := ⟨n - 1, by omega⟩
  set b := l.length / (m + 1) with hb
  rw [List.range_succ, List.map_append, List.flatten_append]
  have hfirst : (List.range m).map (fun i =>
      (l.drop (i * b)).take
        ((if i = m + 1 - 1 then l.length else (i + 1) * b) - i * b))
      = (List.range m).map (fun i => (l.drop (i * b)).take b) := by
    apply List.map_congr_left
    intro i hi
    have him : i < m := List.mem_range.mp hi
    rw [if_neg (by omega), Nat.succ_mul, Nat.add_sub_cancel_left]
  rw [hfirst, slices_flatten]
  have hif : (if m = m + 1 - 1 then l.length else (m + 1) * b) = l.length :=
    if_pos (by omega)
  simp only [List.map_cons, List.map_nil, List.flatten_cons, List.flatten_nil,
    List.append_nil, hif]
  have hmb : m * b ≤ l.length := by
    have h1 : b * (m + 1) ≤ l.length := Nat.div_mul_le_self _ _
    calc m * b ≤ (m + 1) * b := Nat.mul_le_mul_right _ (by omega)
      _ = b * (m + 1) := Nat.mul_comm _ _
      _ ≤ l.length := h1
  have htake : (l.drop (m * b)).take (l.length - m * b) = l.drop (m * b) := by
    apply List.take_of_length_le
    rw [List.length_drop]
  rw [htake, List.take_append_drop]

/-! Association-list table machinery -/

theorem addPair_snd_pos {t : List (List Char × Nat)} {w : List Char} {c : Nat}
    (ht : ∀ p ∈ t, 1 ≤ p.2) (hc : 1 ≤ c) :
    ∀ p ∈ addPair t w c, 1 ≤ p.2 := by
  induction t with
  | nil =>
    intro p hp
    simp only [addPair, List.mem_singleton] at hp
    subst hp
    exact hc
  | cons q t ih =>
    intro p hp
    obtain ⟨w', c'⟩ := q
    simp only [addPair] at hp
    by_cases hw : w' = w
    · rw [if_pos hw] at hp
      rcases List.mem_cons.mp hp with rfl | hp'
      · have := ht (w', c') (List.mem_cons_self _ _)
        simp only at this ⊢
        omega
      · exact ht p (List.mem_cons_of_mem _ hp')
    · rw [if_neg hw] at hp
      rcases List.mem_cons.mp hp with rfl | hp'
      · exact ht (w', c') (List.mem_cons_self _ _)
      · exact ih (fun q hq => ht q (List.mem_cons_of_mem _ hq)) p hp'

theorem addPair_fst_prop {Q : List Char → Prop} {t : List (List Char × Nat)}
    {w : List Char} {c : Nat} (ht : ∀ p ∈ t, Q p.1) (hw : Q w) :
    ∀ p ∈ addPair t w c, Q p.1 := by
  induction t with
  | nil =>
    intro p hp
    simp only [addPair, List.mem_singleton] at hp
    subst hp
    exact hw
  | cons q t ih =>
    intro p hp
    obtain ⟨w', c'⟩ := q
    simp only [addPair] at hp
    by_cases hww : w' = w
    · rw [if_pos hww] at hp
      rcases List.mem_cons.mp hp with rfl | hp'
      · exact ht (w', c') (List.mem_cons_self _ _)
      · exact ht p (List.mem_cons_of_mem _ hp')
    · rw [if_neg hww] at hp
      rcases List.mem_cons.mp hp with rfl | hp'
      · exact ht (w', c') (List.mem_cons_self _ _)
      · exact ih (fun q hq => ht q (List.mem_cons_of_mem _ hq)) p hp'

theorem lookup_addPair_self (t : List (List Char × Nat)) (w : List Char)
    (c : Nat) :
    lookup (addPair t w c) w = some ((lookup t w).getD 0 + c) := by
  induction t with
  | nil => simp [addPair, lookup]
  | cons q t ih =>
    obtain ⟨a, b⟩ := q
    by_cases haw : a = w
    · subst haw
      simp [addPair, lookup]
    · simp [addPair, lookup, haw, ih]

theorem lookup_addPair_other (t : List (List Char × Nat)) (w : List Char)
    (c : Nat) {w' : List Char} (h : w' ≠ w) :
    lookup (addPair t w c) w' = lookup t w' := by
  induction t with
  | nil => simp [addPair, lookup, Ne.symm h]
  | cons q t ih =>
    obtain ⟨a, b⟩ := q
    by_cases haw : a = w
    · subst haw
      simp [addPair, lookup, Ne.symm h]
    · by_cases haw' : a = w'
      · subst haw'
        simp [addPair, lookup, haw]
      · simp [addPair, lookup, haw, haw', ih]

theorem lookup_eq_none_iff (t : List (List Char × Nat)) (w : List Char) :
    lookup t w = none ↔ w ∉ t.map Prod.fst := by
  induction t with
  | nil => simp [lookup]
  | cons q t ih =>
    obtain ⟨a, b⟩ := q
    simp only [lookup, List.map_cons, List.mem_cons]
    by_cases h : a = w
    · subst h
      rw [if_pos rfl]
      simp
    · rw [if_neg h, ih]
      constructor
      · intro hn
        rintro (rfl | hmem)
        · exact h rfl
        · exact hn hmem
      · intro hn hmem
        exact hn (Or.inr hmem)

/-- Folding a flat list of emitted pairs into a table, the elementary loop of
`reduce_function`. -/
def foldPairs (ps : List (List Char × Nat)) (t : List (List Char × Nat)) :
    List (List Char × Nat) :=
  ps.foldl (fun t wc => addPair t wc.1 wc.2) t

/-- Total count contributed for the word `w` by a list of emitted pairs. -/
def countFor (ps : List (List Char × Nat)) (w : List Char) : Nat :=
  ((ps.filter (fun p => decide (p.1 = w))).map Prod.snd).sum

theorem countFor_cons (p : List Char × Nat) (ps : List (List Char × Nat))
    (w : List Char) :
    countFor (p :: ps) w
      = (if p.1 = w then p.2 else 0) + countFor ps w := by
  by_cases h : p.1 = w
  · simp [countFor, List.filter_cons, h]
  · simp [countFor, List.filter_cons, h]

theorem countFor_eq_zero_of_not_mem {ps : List (List Char × Nat)}
    {w : List Char} (h : w ∉ ps.map Prod.fst) : countFor ps w = 0 := by
  induction ps with
  | nil => rfl
  | cons p ps ih =>
    simp only [List.map_cons, List.mem_cons] at h
    push_neg at h
    rw [countFor_cons, if_neg (fun hh => h.1 hh.symm), ih h.2]

theorem reduce_function_eq_foldPairs (L : List (List (List Char × Nat))) :
    reduce_function L = foldPairs L.flatten [] := by
  rw [reduce_function, foldPairs, List.foldl_flatten]

theorem lookup_foldPairs :
    ∀ (ps : List (List Char × Nat)) (t : List (List Char × Nat))
      (w : List Char),
      lookup (foldPairs ps t) w
        = if w ∈ ps.map Prod.fst
          then some ((lookup t w).getD 0 + countFor ps w)
          else lookup t w := by
  intro ps
  induction ps with
  | nil => intro t w; simp [foldPairs]
  | cons p ps ih =>
    intro t w
    have hstep : foldPairs (p :: ps) t = foldPairs ps (addPair t p.1 p.2) := rfl
    rw [hstep, ih]
    by_cases hp : p.1 = w
    · have hmem : w ∈ (p :: ps).map Prod.fst := by
        simp [hp]
      rw [if_pos hmem, countFor_cons, if_pos hp]
      have hself : lookup (addPair t p.1 p.2) w
          = some ((lookup t w).getD 0 + p.2) := by
        rw [hp] at *
        exact lookup_addPair_self t w p.2
      by_cases hps : w ∈ ps.map Prod.fst
      · rw [if_pos hps, hself]
        simp only [Option.getD_some]
        congr 1
        omega
      · rw [if_neg hps, hself, countFor_eq_zero_of_not_mem hps]
        simp
    · have hother : lookup (addPair t p.1 p.2) w = lookup t w :=
        lookup_addPair_other t p.1 p.2 (fun hh => hp hh.symm)
      have hmem : (w ∈ (p :: ps).map Prod.fst) ↔ w ∈ ps.map Prod.fst := by
        simp only [List.map_cons, List.mem_cons]
        constructor
        · rintro (rfl | h)
          · exact absurd rfl hp
          · exact h
        · exact Or.inr
      rw [countFor_cons, if_neg hp, hother]
      by_cases hps : w ∈ ps.map Prod.fst
      · rw [if_pos hps, if_pos (hmem.mpr hps)]
        simp
      · rw [if_neg hps, if_neg (fun h => hps (hmem.mp h))]

theorem lookup_reduce_function (L : List (List (List Char × Nat)))
    (w : List Char) :
    lookup (reduce_function L) w
      = if w ∈ L.flatten.map Prod.fst then some (countFor L.flatten w)
        else none := by
  rw [reduce_function_eq_foldPairs, lookup_foldPairs]
  simp [lookup]

theorem keys_reduce_function (L : List (List (List Char × Nat)))
    (w : List Char) :
    w ∈ (reduce_function L).map Prod.fst ↔ w ∈ L.flatten.map Prod.fst := by
  have h1 := lookup_eq_none_iff (reduce_function L) w
  have h2 := lookup_reduce_function L w
  by_cases hm : w ∈ L.flatten.map Prod.fst
  · rw [if_pos hm] at h2
    constructor
    · intro _; exact hm
    · intro _
      by_contra hk
      rw [h1.mpr hk] at h2
      exact Option.noConfusion h2
  · rw [if_neg hm] at h2
    constructor
    · intro hk
      exact absurd (h1.mp h2) (fun hkk => hkk hk)
    · intro h; exact absurd h hm

theorem foldPairs_snd_pos {ps t : List (List Char × Nat)}
    (ht : ∀ p ∈ t, 1 ≤ p.2) (hps : ∀ q ∈ ps, 1 ≤ q.2) :
    ∀ p ∈ foldPairs ps t, 1 ≤ p.2 := by
  induction ps generalizing t with
  | nil => exact ht
  | cons q ps ih =>
    intro p hp
    have hstep : foldPairs (q :: ps) t = foldPairs ps (addPair t q.1 q.2) := rfl
    rw [hstep] at hp
    exact ih (addPair_snd_pos ht (hps q (List.mem_cons_self q ps)))
      (fun r hr => hps r (List.mem_cons_of_mem _ hr)) p hp

theorem foldPairs_fst_prop {Q : List Char → Prop} {ps t : List (List Char × Nat)}
    (ht : ∀ p ∈ t, Q p.1) (hps : ∀ q ∈ ps, Q q.1) :
    ∀ p ∈ foldPairs ps t, Q p.1 := by
  induction ps generalizing t with
  | nil => exact ht
  | cons q ps ih =>
    intro p hp
    have hstep : foldPairs (q :: ps) t = foldPairs ps (addPair t q.1 q.2) := rfl
    rw [hstep] at hp
    exact ih (addPair_fst_prop ht (hps q (List.mem_cons_self q ps)))
      (fun r hr => hps r (List.mem_cons_of_mem _ hr)) p hp

/-! map_function characterization -/

theorem foldl_append_if {α β : Type} (P : α → Prop) [DecidablePred P]
    (g : α → β) :
    ∀ (l : List α) (acc : List β),
      l.foldl (fun acc a => if P a then acc ++ [g a] else acc) acc
        = acc ++ l.filterMap (fun a => if P a then some (g a) else none) := by
  intro l
  induction l with
  | nil => intro acc; simp
  | cons a l ih =>
    intro acc
    by_cases hP : P a
    · simp only [List.foldl_cons, List.filterMap_cons, if_pos hP]
      rw [ih, List.append_assoc]
      rfl
    · simp only [List.foldl_cons, List.filterMap_cons, if_neg hP]
      exact ih acc

theorem map_function_eq_filterMap (text_chunk : List Char) :
    map_function text_chunk
      = (pySplit text_chunk).filterMap (fun word =>
          if 2 < word.length ∧ word ∉ stop_words then some (word, 1)
          else none) := by
  have h1 : map_function text_chunk
      = (pySplit text_chunk).foldl
          (fun acc w =>
            if 2 < (stripList w).length ∧ stripList w ∉ stop_words
            then acc ++ [(stripList w, 1)] else acc) [] := rfl
  rw [h1, foldl_append_if
    (fun w => 2 < (stripList w).length ∧ stripList w ∉ stop_words)
    (fun w => (stripList w, 1))]
  rw [List.nil_append]
  apply List.filterMap_congr
  intro w hw
  have hsp := (pySplit_words_ok hw).2
  rw [stripList_eq_self_of_forall hsp]

theorem map_function_mem_prop {p : List Char × Nat} {text_chunk : List Char}
    (hp : p ∈ map_function text_chunk) :
    2 < p.1.length ∧ p.1 ∉ stop_words ∧ p.2 = 1 := by
  rw [map_function_eq_filterMap] at hp
  obtain ⟨w, -, hw⟩ := List.mem_filterMap.mp hp
  by_cases hc : 2 < w.length ∧ w ∉ stop_words
  · rw [if_pos hc] at hw
    obtain rfl := Option.some.inj hw
    exact ⟨hc.1, hc.2, rfl⟩
  · rw [if_neg hc] at hw
    exact Option.noConfusion hw

/-! Normalization output structure -/

theorem preprocess_cleanChar (x : List Char) :
    ∀ c ∈ preprocess_text x, cleanChar c := by
  intro c hc
  have hc4 : c ∈ (collapseWs ((stripTags x).map pyLower)).filter keepChar :=
    mem_stripList hc
  obtain ⟨hc3, hkeep⟩ := List.mem_filter.mp hc4
  simp only [keepChar, Bool.or_eq_true] at hkeep
  rcases hkeep with hl | hs
  · simp only [isLowerAZ, Bool.and_eq_true, decide_eq_true_eq] at hl
    exact Or.inl hl
  · exact Or.inr (space_mem_collapseWsAux _ false hc3 hs)

theorem preprocess_of_clean {s : List Char} (h : ∀ c ∈ s, cleanChar c) :
    preprocess_text s = stripList (collapseWs s) := by
  have h1 : stripTags s = s :=
    stripTags_eq_self (fun c hc => cleanChar_not_lt (h c hc))
  show stripList ((collapseWs ((stripTags s).map pyLower)).filter keepChar) = _
  rw [h1, map_pyLower_eq_self h]
  congr 1
  apply List.filter_eq_self.mpr
  intro c hc
  rcases collapseWs_mem hc with hcs | rfl
  · exact cleanChar_keep (h c hcs)
  · decide

theorem noTwoSpaces_stripList {s : List Char} (h : noTwoSpaces s) :
    noTwoSpaces (stripList s) := by
  have hinfix : stripList s <:+: s := by
    have h1 : stripList s <+: s.dropWhile isSpaceCh := stripList_prefixDrop s
    have h2 : s.dropWhile isSpaceCh <:+ s := dropWhile_suffix _ _
    exact h1.isInfix.trans h2.isInfix
  exact h.infix hinfix

/-- C1 counterexample input: a digit flanked by spaces.  Whitespace is
collapsed (line 90) before non-letters are deleted (line 93), so deleting
the digit leaves two adjacent spaces that a second normalization pass then
collapses. -/
theorem preprocess_not_idempotent_example :
    preprocess_text (preprocess_text ("a 1 b".toList))
      ≠ preprocess_text ("a 1 b".toList) := by
  decide

/-- C1 (amended): a single application of `preprocess_text` is not idempotent,
but from the second application on the result is a fixed point: applying
`preprocess_text` three times agrees with applying it twice, for every
input. -/
theorem preprocess_text_twice_fixed (x : List Char) :
    preprocess_text (preprocess_text (preprocess_text x))
      = preprocess_text (preprocess_text x) := by
  have hyc : ∀ c ∈ preprocess_text x, cleanChar c := preprocess_cleanChar x
  have hy2 : preprocess_text (preprocess_text x)
      = stripList (collapseWs (preprocess_text x)) := preprocess_of_clean hyc
  have hy2c : ∀ c ∈ preprocess_text (preprocess_text x), cleanChar c :=
    preprocess_cleanChar (preprocess_text x)
  have h3 : preprocess_text (preprocess_text (preprocess_text x))
      = stripList (collapseWs (preprocess_text (preprocess_text x))) :=
    preprocess_of_clean hy2c
  have hnr : noTwoSpaces (preprocess_text (preprocess_text x)) := by
    rw [hy2]
    exact noTwoSpaces_stripList (noTwoSpaces_collapseWs _)
  have hsp : ∀ c ∈ preprocess_text (preprocess_text x),
      isSpaceCh c = true → c = ' ' :=
    fun c hc hs => cleanChar_space_eq_blank (hy2c c hc) hs
  have hcoll : collapseWs (preprocess_text (preprocess_text x))
      = preprocess_text (preprocess_text x) := collapseWs_eq_self hsp hnr
  rw [h3, hcoll, hy2, stripList_idem]

/-- C2 counterexample: on input `"a 1 b"` the normalized output is
`"a  b"`, which contains two consecutive spaces, refuting the
single-space-separator part of the claim. -/
theorem preprocess_double_space_example :
    preprocess_text ("a 1 b".toList) = ['a', ' ', ' ', 'b']
      ∧ ¬ noTwoSpaces (preprocess_text ("a 1 b".toList)) := by
  constructor
  · decide
  · intro h
    rw [(show preprocess_text ("a 1 b".toList) = ['a', ' ', ' ', 'b'] by decide)]
      at h
    have h2 := (List.chain'_cons'.mp ((List.chain'_cons'.mp h).2)).1 ' ' rfl
    exact h2 ⟨rfl, rfl⟩

/-- C2 (amended): every character of `preprocess_text`'s output is a
lowercase ASCII letter or a blank, and the output has no leading and no
trailing space; runs of more than one space may however occur inside. -/
theorem preprocess_charset_trim (x : List Char) :
    (∀ c ∈ preprocess_text x, cleanChar c)
      ∧ (∀ c, (preprocess_text x).head? = some c → c ≠ ' ')
      ∧ (∀ c, (preprocess_text x).getLast? = some c → c ≠ ' ') := by
  refine ⟨preprocess_cleanChar x, ?_, ?_⟩
  · intro c hc
    have hsp := head?_stripList
      (s := (collapseWs ((stripTags x).map pyLower)).filter keepChar) c hc
    intro hceq
    rw [hceq] at hsp
    exact absurd hsp (by decide)
  · intro c hc
    have hsp := getLast?_stripList
      (s := (collapseWs ((stripTags x).map pyLower)).filter keepChar) c hc
    intro hceq
    rw [hceq] at hsp
    exact absurd hsp (by decide)

/-- Witness for the amended C2 theorem at the concrete input `"A 1 b!"`
(normalized output `"a  b"`). -/
theorem preprocess_charset_trim_witness :
    cleanChar 'a' ∧ 'a' ≠ ' ' ∧ 'b' ≠ ' ' :=
  ⟨(preprocess_charset_trim ("A 1 b!".toList)).1 'a' (by decide),
   (preprocess_charset_trim ("A 1 b!".toList)).2.1 'a' (by decide),
   (preprocess_charset_trim ("A 1 b!".toList)).2.2 'b' (by decide)⟩

/-- C4: for every text and every `num_chunks ≥ 1`, the chunker returns
exactly `num_chunks` segments whose word lists, concatenated in segment
order, are exactly the word list of the input — no word lost, duplicated or
reordered — and hence the segment word counts sum to the total word
count (empty segments included when `num_chunks` exceeds the word count). -/
theorem split_text_into_chunks_complete (text : List Char) (num_chunks : Int)
    (h : 1 ≤ num_chunks) (chunks : List (List Char))
    (hok : split_text_into_chunks text num_chunks = .ok chunks) :
    chunks.length = num_chunks.toNat
      ∧ (chunks.map pySplit).flatten = pySplit text
      ∧ (chunks.map (fun c => (pySplit c).length)).sum
          = (pySplit text).length := by
  have h0 : ¬(num_chunks = 0) := by omega
  have hn1 : 1 ≤ num_chunks.toNat := by omega
  simp only [split_text_into_chunks, if_neg h0] at hok
  obtain rfl : chunks = _ := (Except.ok.inj hok).symm
  have hmapsplit :
      ((List.range num_chunks.toNat).map (fun i =>
          joinWords (((pySplit text).drop
              (i * ((pySplit text).length / num_chunks.toNat))).take
            ((if i = num_chunks.toNat - 1 then (pySplit text).length
              else (i + 1) * ((pySplit text).length / num_chunks.toNat))
              - i * ((pySplit text).length / num_chunks.toNat))))).map pySplit
        = (List.range num_chunks.toNat).map (fun i =>
            ((pySplit text).drop
              (i * ((pySplit text).length / num_chunks.toNat))).take
            ((if i = num_chunks.toNat - 1 then (pySplit text).length
              else (i + 1) * ((pySplit text).length / num_chunks.toNat))
              - i * ((pySplit text).length / num_chunks.toNat))) := by
    rw [List.map_map]
    apply List.map_congr_left
    intro i _
    show pySplit (joinWords _) = _
    apply pySplit_joinWords
    intro w hw
    exact pySplit_words_ok (List.mem_of_mem_drop (List.mem_of_mem_take hw))
  have hflat :
      (((List.range num_chunks.toNat).map (fun i =>
          joinWords (((pySplit text).drop
              (i * ((pySplit text).length / num_chunks.toNat))).take
            ((if i = num_chunks.toNat - 1 then (pySplit text).length
              else (i + 1) * ((pySplit text).length / num_chunks.toNat))
              - i * ((pySplit text).length / num_chunks.toNat))))).map
        pySplit).flatten = pySplit text := by
    rw [hmapsplit]
    exact range_map_slices (pySplit text) num_chunks.toNat hn1
  refine ⟨by simp, hflat, ?_⟩
  have hlen := congrArg List.length hflat
  rw [List.length_flatten, List.map_map] at hlen
  exact hlen

/-- Witness for C4 at `"one two three"` with two chunks
(`["one", "two three"]`). -/
theorem split_text_into_chunks_complete_witness :
    (1 : Int) ≤ 2
      ∧ split_text_into_chunks ("one two three".toList) 2
          = .ok ["one".toList, "two three".toList]
      ∧ (["one".toList, "two three".toList].length = (2 : Int).toNat
          ∧ ((["one".toList, "two three".toList]).map pySplit).flatten
              = pySplit ("one two three".toList)
          ∧ ((["one".toList, "two three".toList]).map
                (fun c => (pySplit c).length)).sum
              = (pySplit ("one two three".toList)).length) :=
  ⟨by decide, rfl,
   split_text_into_chunks_complete ("one two three".toList) 2 (by decide)
     ["one".toList, "two three".toList] rfl⟩

/-- C5: `map_function` emits exactly one pair `(token, 1)` for each
whitespace-delimited token of the segment that is longer than the minimum
word length 2 and is not a stop word, in token order, and emits nothing for
any other token — this is precisely a `filterMap` over the segment's word
list. -/
theorem map_function_spec (text_chunk : List Char) :
    map_function text_chunk
      = (pySplit text_chunk).filterMap (fun word =>
          if 2 < word.length ∧ word ∉ stop_words then some (word, 1)
          else none) :=
  map_function_eq_filterMap text_chunk

theorem reduce_function_eq_nil_of_all_nil
    {L : List (List (List Char × Nat))} (h : ∀ l ∈ L, l = []) :
    reduce_function L = [] := by
  rw [reduce_function_eq_foldPairs]
  have hflat : L.flatten = [] := by
    rw [List.flatten_eq_nil_iff]
    exact h
  rw [hflat]
  rfl

/-- C3 counterexample: an invalid configuration is not rejected before
execution.  A negative top-K is answered with an empty list instead of being
rejected; and for `workerCount = -1` the chunker runs to completion on a
nonempty input (partial work), the failure arising only afterwards, as the
`ValueError` of the worker-pool construction, not as an up-front config
rejection. -/
theorem invalid_config_not_rejected_example :
    get_top_words [("fox".toList, 2)] (-1) = []
      ∧ split_text_into_chunks ("hello world everyone".toList) (-1) = .ok []
      ∧ mapreduce_word_count (-1) ("hello world everyone".toList)
          = .error "ValueError: max_workers must be greater than 0" :=
  ⟨rfl, rfl, rfl⟩

/-- C3 (amended): the code performs no up-front configuration validation.  A
`topK < 0` is not rejected at all: `get_top_words` answers with an empty
list.  A `workerCount < 1` does make the pipeline fail — `workerCount = 0`
with a `ZeroDivisionError` inside the chunking step, `workerCount < 0` with
the `ValueError` raised when the worker pool is constructed — but only after
normalization has run and, in the negative case, after chunking has also
completed (returning its empty segment list), not synchronously before
execution begins. -/
theorem no_config_validation (text : List Char) (t : List (List Char × Nat))
    (nw k : Int) (hnw : nw < 0) (hk : k < 0) :
    mapreduce_word_count nw text
        = .error "ValueError: max_workers must be greater than 0"
      ∧ split_text_into_chunks (preprocess_text text) nw = .ok []
      ∧ mapreduce_word_count 0 text
          = .error "ZeroDivisionError: integer division or modulo by zero"
      ∧ get_top_words t k = [] := by
  have h0 : ¬(nw = 0) := by omega
  have hto : nw.toNat = 0 := by omega
  refine ⟨?_, ?_, ?_, ?_⟩
  · simp only [mapreduce_word_count, split_text_into_chunks, if_neg h0, hto]
    simp only [List.range_zero, List.map_nil]
    rw [if_pos (by omega : nw ≤ 0)]
  · simp only [split_text_into_chunks, if_neg h0, hto]
    simp
  · simp [mapreduce_word_count, split_text_into_chunks]
  · have hkto : k.toNat = 0 := by omega
    simp [get_top_words, hkto]

/-- Witness for the amended C3 theorem at `workerCount ∈ {-1, 0}` and
`topK = -2`. -/
theorem no_config_validation_witness :
    mapreduce_word_count (-1) ("aaa bbb".toList)
        = .error "ValueError: max_workers must be greater than 0"
      ∧ split_text_into_chunks (preprocess_text ("aaa bbb".toList)) (-1)
          = .ok []
      ∧ mapreduce_word_count 0 ("aaa bbb".toList)
          = .error "ZeroDivisionError: integer division or modulo by zero"
      ∧ get_top_words [("fox".toList, 2)] (-2) = [] :=
  no_config_validation ("aaa bbb".toList) [("fox".toList, 2)] (-1) (-2)
    (by decide) (by decide)

/-- C9: an input whose normalized text contains no word is not an error: the
pipeline returns an empty frequency table, and the top-words selection on the
empty table returns an empty list. -/
theorem empty_input_not_error (text : List Char) (nw k : Int) (h1 : 1 ≤ nw)
    (hempty : pySplit (preprocess_text text) = []) :
    mapreduce_word_count nw text = .ok [] ∧ get_top_words [] k = [] := by
  constructor
  · have h0 : ¬(nw = 0) := by omega
    have hpos : ¬(nw ≤ 0) := by omega
    simp only [mapreduce_word_count, split_text_into_chunks, if_neg h0,
      if_neg hpos, hempty]
    simp only [List.drop_nil, List.take_nil]
    congr 1
    apply reduce_function_eq_nil_of_all_nil
    intro l hl
    obtain ⟨c, hc, rfl⟩ := List.mem_map.mp hl
    obtain ⟨i, -, rfl⟩ := List.mem_map.mp hc
    rfl
  · simp [get_top_words]

/-- Witness for C9 at the input `" 42 !"`, whose normalization contains no
letters, with 4 workers and top-K 10. -/
theorem empty_input_not_error_witness :
    pySplit (preprocess_text (" 42 !".toList)) = []
      ∧ mapreduce_word_count 4 (" 42 !".toList) = .ok []
      ∧ get_top_words [] 10 = [] :=
  ⟨rfl, empty_input_not_error (" 42 !".toList) 4 10 (by decide) rfl⟩

/-- C6: the table produced by `reduce_function` denotes the same
word-to-count mapping for every permutation of the per-segment result lists:
merging is order independent. -/
theorem reduce_function_perm_invariant
    (L1 L2 : List (List (List Char × Nat))) (hperm : L1.Perm L2)
    (w : List Char) :
    lookup (reduce_function L1) w = lookup (reduce_function L2) w := by
  rw [lookup_reduce_function, lookup_reduce_function]
  have hflat : L1.flatten.Perm L2.flatten := hperm.flatten
  have hmem : (w ∈ L1.flatten.map Prod.fst) ↔ (w ∈ L2.flatten.map Prod.fst) :=
    (hflat.map Prod.fst).mem_iff
  have hcount : countFor L1.flatten w = countFor L2.flatten w :=
    List.Perm.sum_eq (((hflat.filter _)).map Prod.snd)
  by_cases hm : w ∈ L1.flatten.map Prod.fst
  · rw [if_pos hm, if_pos (hmem.mp hm), hcount]
  · rw [if_neg hm, if_neg (fun hh => hm (hmem.mpr hh))]

/-- Witness for C6: swapping two per-segment result lists leaves the count of
`"abc"` unchanged. -/
theorem reduce_function_perm_invariant_witness :
    lookup (reduce_function
        [[("abc".toList, 1)], [("abc".toList, 2), ("wxyz".toList, 5)]])
      ("abc".toList)
      = lookup (reduce_function
          [[("abc".toList, 2), ("wxyz".toList, 5)], [("abc".toList, 1)]])
        ("abc".toList) :=
  reduce_function_perm_invariant _ _ (List.Perm.swap _ _ _) ("abc".toList)

/-- C7: for a frequency table with distinct keys and `k ≥ 0`,
`get_top_words` returns exactly `min k (number of distinct words)` pairs,
sorted non-increasingly by count; when `k` is at least the distinct word
count it returns all the table's entries (sorted), and on the empty table it
returns the empty list rather than an error. -/
theorem get_top_words_spec (t : List (List Char × Nat)) (k : Int)
    (hk : 0 ≤ k) (hnd : (t.map Prod.fst).Nodup) :
    (get_top_words t k).length = min k.toNat t.length
      ∧ List.Sorted countGe (get_top_words t k)
      ∧ (t.length ≤ k.toNat → (get_top_words t k).Perm t)
      ∧ get_top_words [] k = [] := by
  refine ⟨?_, ?_, ?_, ?_⟩
  · rw [get_top_words, List.length_take,
      (List.perm_insertionSort countGe t).length_eq]
  · exact List.Pairwise.sublist (List.take_sublist _ _)
      (List.sorted_insertionSort countGe t)
  · intro hlen
    rw [get_top_words, List.take_of_length_le]
    · exact List.perm_insertionSort countGe t
    · rw [(List.perm_insertionSort countGe t).length_eq]
      exact hlen
  · simp [get_top_words]

/-- Witness for C7 at a two-entry table with `k = 1`. -/
theorem get_top_words_spec_witness :
    (get_top_words [("fox".toList, 2), ("dog".toList, 1)] 1).length
      = min ((1 : Int).toNat) ([("fox".toList, 2), ("dog".toList, 1)].length) :=
  (get_top_words_spec [("fox".toList, 2), ("dog".toList, 1)] 1 (by decide)
    (by decide)).1

/-- C8: no word of length at most 2 and no stop word ever appears as a key of
a frequency table produced by `mapreduce_word_count`. -/
theorem mapreduce_excludes_short_and_stop (nw : Int) (text : List Char)
    (table : List (List Char × Nat))
    (hok : mapreduce_word_count nw text = .ok table) :
    ∀ p ∈ table, 2 < p.1.length ∧ p.1 ∉ stop_words := by
  by_cases h0 : nw = 0
  · subst h0
    simp [mapreduce_word_count, split_text_into_chunks] at hok
  · by_cases hneg : nw ≤ 0
    · simp [mapreduce_word_count, split_text_into_chunks, if_neg h0,
        if_pos hneg] at hok
    simp only [mapreduce_word_count, split_text_into_chunks, if_neg h0,
      if_neg hneg] at hok
    obtain rfl : table = _ := (Except.ok.inj hok).symm
    intro p hp
    rw [reduce_function_eq_foldPairs] at hp
    refine foldPairs_fst_prop
      (Q := fun w => 2 < w.length ∧ w ∉ stop_words) (by simp) ?_ p hp
    intro q hq
    obtain ⟨l, hl, hql⟩ := List.mem_flatten.mp hq
    obtain ⟨c, -, rfl⟩ := List.mem_map.mp hl
    have hprop := map_function_mem_prop hql
    exact ⟨hprop.1, hprop.2.1⟩

/-- Witness for C8 on the spec's sample sentence: the retained key
`"quick"` is long enough and is not a stop word. -/
theorem mapreduce_excludes_short_and_stop_witness :
    2 < ("quick".toList).length ∧ ("quick".toList) ∉ stop_words :=
  mapreduce_excludes_short_and_stop 2 ("the quick quick fox".toList)
    [("quick".toList, 2), ("fox".toList, 1)] rfl ("quick".toList, 2)
    (by decide)

/-- C10: when every emitted pair carries a count of at least one (as
`map_function`'s emissions, always `1`, do), every value of the reduced table
is at least one, and a word is a key of the table exactly when some segment
emitted it; in particular every table produced by `mapreduce_word_count` has
only positive counts. -/
theorem reduce_function_counts_pos :
    (∀ L : List (List (List Char × Nat)),
        (∀ l ∈ L, ∀ p ∈ l, 1 ≤ p.2) →
          (∀ p ∈ reduce_function L, 1 ≤ p.2)
            ∧ (∀ w, w ∈ (reduce_function L).map Prod.fst
                ↔ w ∈ L.flatten.map Prod.fst))
      ∧ (∀ (nw : Int) (text : List Char) (table : List (List Char × Nat)),
          mapreduce_word_count nw text = .ok table →
            ∀ p ∈ table, 1 ≤ p.2) := by
  constructor
  · intro L hL
    constructor
    · intro p hp
      rw [reduce_function_eq_foldPairs] at hp
      refine foldPairs_snd_pos (by simp) ?_ p hp
      intro q hq
      obtain ⟨l, hl, hql⟩ := List.mem_flatten.mp hq
      exact hL l hl q hql
    · intro w
      exact keys_reduce_function L w
  · intro nw text table hok
    by_cases h0 : nw = 0
    · subst h0
      simp [mapreduce_word_count, split_text_into_chunks] at hok
    · by_cases hneg : nw ≤ 0
      · simp [mapreduce_word_count, split_text_into_chunks, if_neg h0,
          if_pos hneg] at hok
      simp only [mapreduce_word_count, split_text_into_chunks, if_neg h0,
        if_neg hneg] at hok
      obtain rfl : table = _ := (Except.ok.inj hok).symm
      intro p hp
      rw [reduce_function_eq_foldPairs] at hp
      refine foldPairs_snd_pos (by simp) ?_ p hp
      intro q hq
      obtain ⟨l, hl, hql⟩ := List.mem_flatten.mp hq
      obtain ⟨c, -, rfl⟩ := List.mem_map.mp hl
      have hprop := map_function_mem_prop hql
      omega

/-- Witness for C10: the merged count of `"abc"` over two emissions is
positive, and `"abc"` is a key of the reduced table. -/
theorem reduce_function_counts_pos_witness :
    ("abc".toList, 2) ∈ reduce_function [[("abc".toList, 1)], [("abc".toList, 1)]]
      ∧ 1 ≤ (("abc".toList, 2)).2 :=
  ⟨by decide,
   (reduce_function_counts_pos.1 [[("abc".toList, 1)], [("abc".toList, 1)]]
      (by decide)).1 ("abc".toList, 2) (by decide)⟩
